import Mathlib

/-!
Verification development for the temporal synchronization and inter-stage
handoff subsystem of a stereo visual-inertial odometry pipeline, together
with two utility functions from `UtilsOpenCV.h`.

The buffer, queue and assembler components are modelled from the
specification (their implementation files `ThreadsafeImuBuffer.h`,
`ThreadsafeQueue.h`, `ThreadsafeTemporalBuffer.h` are only referenced by the
build scripts and are not part of the inspected sources); the two matrix /
pixel utilities are shallow embeddings of the code in `UtilsOpenCV.h`.
-/

namespace VIO

/-- Timestamps are monotonically-ordered integers (nanosecond resolution). -/
abbrev Timestamp := ℤ

/-- A 3-vector of exact rational components, modelling the numeric payload of
an inertial sample (the real code uses floating point; linear interpolation
is modelled over ℚ). -/
structure Vec3 where
  x : ℚ
  y : ℚ
  z : ℚ
deriving DecidableEq, Repr

/-- Modelled from the spec: `InertialSample` is
`{timestamp, angular_velocity : 3-vector, linear_acceleration : 3-vector}`,
immutable once inserted. -/
structure InertialSample where
  timestamp : ℤ
  angular_velocity : Vec3
  linear_acceleration : Vec3
deriving DecidableEq, Repr

/-- Modelled from the spec: the error taxonomy of §7 for the buffer
operations (`OutOfOrderInsertion`, `InsufficientData`, `DataGap`). -/
inductive BufferError where
  | OutOfOrderInsertion
  | InsufficientData
  | DataGap
deriving DecidableEq, Repr

/-- Modelled from the spec: `InertialSampleBuffer` is an ordered sequence of
`InertialSample`, ordered by timestamp ascending (missing source file
`ThreadsafeImuBuffer.h`). -/
structure InertialSampleBuffer where
  samples : List InertialSample
deriving DecidableEq, Repr

/-- The buffer invariant of §3: strictly increasing timestamps
(no duplicates, no regression). -/
def BufferWF (b : InertialSampleBuffer) : Prop :=
  b.samples.Pairwise (fun a c => a.timestamp < c.timestamp)

/-- Modelled from the spec: `insert(sample)` fails with `OutOfOrderInsertion`
if `sample.timestamp` is not strictly greater than every previously inserted
(and not-yet-purged) sample's timestamp; otherwise the sample is appended.
The state-passing result leaves the buffer unchanged on failure. -/
def insertSample (b : InertialSampleBuffer) (s : InertialSample) :
    Option BufferError × InertialSampleBuffer :=
  if b.samples.all (fun p => decide (p.timestamp < s.timestamp)) then
    (none, ⟨b.samples ++ [s]⟩)
  else
    (some .OutOfOrderInsertion, b)

/-- Exact linear interpolation of one rational coordinate between the values
`a` at time `t0` and `b` at time `t1`, evaluated at time `t`. -/
def lerpQ (t0 t1 : ℤ) (a b : ℚ) (t : ℤ) : ℚ :=
  a + (b - a) * ((t - t0 : ℤ) : ℚ) / ((t1 - t0 : ℤ) : ℚ)

/-- Componentwise linear interpolation of a 3-vector. -/
def lerpVec (t0 t1 : ℤ) (u v : Vec3) (t : ℤ) : Vec3 :=
  ⟨lerpQ t0 t1 u.x v.x t, lerpQ t0 t1 u.y v.y t, lerpQ t0 t1 u.z v.z t⟩

/-- Modelled from the spec: a boundary sample synthesized at time `t` by
linear interpolation of the two bracketing samples `a` and `b`. -/
def lerpSample (a b : InertialSample) (t : ℤ) : InertialSample :=
  { timestamp := t
    angular_velocity :=
      lerpVec a.timestamp b.timestamp a.angular_velocity b.angular_velocity t
    linear_acceleration :=
      lerpVec a.timestamp b.timestamp a.linear_acceleration
        b.linear_acceleration t }

/-- The retained sample nearest below time `t`: the last element of the
sorted list whose timestamp is strictly less than `t`. -/
def findBelow (l : List InertialSample) (t : ℤ) :
    Option InertialSample :=
  (l.filter (fun x => decide (x.timestamp < t))).getLast?

/-- The retained sample nearest above time `t`: the first element of the
sorted list whose timestamp is strictly greater than `t`. -/
def findAbove (l : List InertialSample) (t : ℤ) :
    Option InertialSample :=
  (l.filter (fun x => decide (t < x.timestamp))).head?

/-- The retained samples lying inside the requested interval:
all samples with `start_ts <= timestamp <= end_ts`. -/
def midSamples (l : List InertialSample) (s e : ℤ) :
    List InertialSample :=
  l.filter (fun x => decide (s ≤ x.timestamp) && decide (x.timestamp ≤ e))

/-- Whether the buffer retains a sample with exactly the given timestamp. -/
def hasExact (l : List InertialSample) (t : ℤ) : Bool :=
  l.any (fun x => decide (x.timestamp = t))

/-- Modelled from the spec: the in-range samples, with a boundary sample
synthesized at `start_ts` by linear interpolation of the nearest bracketing
samples when no retained sample sits exactly at `start_ts`. -/
def withStartBoundary (l : List InertialSample) (s e : ℤ) :
    List InertialSample :=
  if hasExact l s then midSamples l s e
  else
    match findBelow l s, findAbove l s with
    | some a, some b => lerpSample a b s :: midSamples l s e
    | _, _ => midSamples l s e

/-- Modelled from the spec: the payload of a successful extraction — all
retained samples with `start_ts <= timestamp <= end_ts`, inclusive of
boundary samples if present, else the nearest bracketing samples are
synthesized by linear interpolation of the boundary values at `start_ts`
and `end_ts`. -/
def buildInterval (l : List InertialSample) (s e : ℤ) :
    List InertialSample :=
  if hasExact l e then withStartBoundary l s e
  else
    match findBelow l e, findAbove l e with
    | some a, some b => withStartBoundary l s e ++ [lerpSample a b e]
    | _, _ => withStartBoundary l s e

/-- Modelled from the spec: `extract_interval(start_ts, end_ts)` fails with
`InsufficientData` if the newest retained sample's timestamp is less than
`end_ts`, fails with `DataGap` if the oldest retained sample's timestamp is
greater than `start_ts`, and otherwise returns the covering sample sequence;
after a successful extraction all samples strictly older than `start_ts`
are purged, while a failed extraction leaves the buffer unchanged. -/
def extract_interval (b : InertialSampleBuffer) (s e : ℤ) :
    Except BufferError (List InertialSample) × InertialSampleBuffer :=
  match b.samples.getLast? with
  | none => (.error .InsufficientData, b)
  | some newest =>
    if newest.timestamp < e then (.error .InsufficientData, b)
    else
      match b.samples.head? with
      | none => (.error .InsufficientData, b)
      | some oldest =>
        if s < oldest.timestamp then (.error .DataGap, b)
        else (.ok (buildInterval b.samples s e),
          ⟨b.samples.filter (fun x => decide (s ≤ x.timestamp))⟩)

/-- Modelled from the spec: the result of a `push` on the Generic Blocking
Queue — it never fails except when the queue has been explicitly shut down,
in which case it signals `Closed` (missing source file `ThreadsafeQueue.h`). -/
inductive PushResult where
  | ok
  | closed
deriving DecidableEq, Repr

/-- Modelled from the spec: the result of a `pop` on the Generic Blocking
Queue — an item, the `Closed` signal once the queue is shut down and
drained, or a marker that the caller would block (an item is not yet
available and the queue is still open). -/
inductive PopResult (α : Type) where
  | item (a : α)
  | closed
  | wouldBlock
deriving DecidableEq, Repr

/-- Modelled from the spec: the Generic Blocking Queue of §4.1, a FIFO
handoff primitive with an explicit shutdown flag (missing source file
`ThreadsafeQueue.h`; blocking is abstracted into the `wouldBlock` result). -/
structure BlockingQueue (α : Type) where
  items : List α
  isShutdown : Bool
deriving DecidableEq, Repr

/-- Modelled from the spec: `push(item)` appends; it fails fast with
`Closed` after shutdown, leaving the queue unchanged. -/
def queuePush {α : Type} (q : BlockingQueue α) (a : α) :
    PushResult × BlockingQueue α :=
  if q.isShutdown then (.closed, q)
  else (.ok, ⟨q.items ++ [a], q.isShutdown⟩)

/-- Modelled from the spec: `pop()` returns the front item when one is
available, returns `Closed` when the queue is shut down and drained, and
otherwise would block until one of those holds. -/
def queuePop {α : Type} (q : BlockingQueue α) :
    PopResult α × BlockingQueue α :=
  match q.items with
  | a :: rest => (.item a, ⟨rest, q.isShutdown⟩)
  | [] => if q.isShutdown then (.closed, q) else (.wouldBlock, q)

/-- Modelled from the spec: `shutdown()` marks the queue closed; items
already pushed are retained so they remain poppable until drained. -/
def queueShutdown {α : Type} (q : BlockingQueue α) : BlockingQueue α :=
  ⟨q.items, true⟩

/-- Modelled from the spec: `GenericTemporalBuffer<V>`, an ordered sequence
of `{timestamp, V}` with a configurable maximum retained count; insertion
beyond the bound evicts the oldest entry (missing source file
`ThreadsafeTemporalBuffer.h`). -/
structure GenericTemporalBuffer (V : Type) where
  cap : ℕ
  entries : List (ℤ × V)
deriving DecidableEq, Repr

/-- Modelled from the spec: temporal-buffer `insert(ts, value)` appends the
new (newest) entry and, when the size bound is exceeded, evicts the single
oldest entry (the head of the timestamp-ordered sequence). -/
def tbInsert {V : Type} (b : GenericTemporalBuffer V) (ts : ℤ)
    (v : V) : GenericTemporalBuffer V :=
  let grown := b.entries ++ [(ts, v)]
  ⟨b.cap, if b.cap < grown.length then grown.tail else grown⟩

/-- Modelled from the spec: the `SynchronizedPacket` of §3 — a camera frame
reference paired with the inertial interval preceding it.  The frame is
identified by its timestamp (the frame payload itself is opaque). -/
structure SynchronizedPacket where
  frame_ts : ℤ
  inertial_interval : List InertialSample
  interval_start_ts : ℤ
  interval_end_ts : ℤ
deriving DecidableEq, Repr

/-- Modelled from the spec: the Synchronization Assembler's state — the
previous-frame timestamp used as `start_ts` of the next interval, the
inertial buffer, and the packets dispatched so far (in dispatch order). -/
structure AssemblerState where
  prev_ts : ℤ
  buffer : InertialSampleBuffer
  dispatched : List SynchronizedPacket
deriving DecidableEq, Repr

/-- Modelled from the spec: a pipeline event consumed by the assembler —
an inertial sample arrival or a camera frame arrival. -/
inductive PipelineEvent where
  | imuArrival (s : InertialSample)
  | frameArrival (ts : ℤ)
deriving DecidableEq, Repr

/-- Modelled from the spec: one assembler step (§4.4).  An inertial arrival
is inserted into the buffer (rejected samples leave it unchanged).  A frame
arrival with a timestamp beyond the previous frame's triggers an interval
extraction `[prev_ts, ts]`; on success a `SynchronizedPacket` is dispatched
and the previous-frame timestamp advances, while on failure (the retry /
drop path) the previous-frame timestamp is not updated. -/
def assemblerStep (st : AssemblerState) (ev : PipelineEvent) :
    AssemblerState :=
  match ev with
  | .imuArrival s => { st with buffer := (insertSample st.buffer s).2 }
  | .frameArrival ts =>
    if st.prev_ts < ts then
      match extract_interval st.buffer st.prev_ts ts with
      | (.ok l, b') =>
        { prev_ts := ts
          buffer := b'
          dispatched := st.dispatched ++ [⟨ts, l, st.prev_ts, ts⟩] }
      | (.error _, b') => { st with buffer := b' }
    else st

/-- Modelled from the spec: running the assembler over a sequence of
pipeline events. -/
def runAssembler (st : AssemblerState) (evs : List PipelineEvent) :
    AssemblerState :=
  evs.foldl assemblerStep st

/-- A pixel coordinate, modelling `cv::Point2f` with exact rationals. -/
structure Point2f where
  x : ℚ
  y : ℚ
deriving DecidableEq, Repr

/-- An image size, modelling `cv::Size` (integer width and height). -/
structure SizeCV where
  width : ℤ
  height : ℤ
deriving DecidableEq, Repr

/-- The shift (excess bit count over the 24-bit binary32 significand) used
when converting an integer magnitude to `float`.  The case chain covers the
32-bit `int` range of the C++ source (magnitudes below 2^32): magnitudes up
to 2^24 are exactly representable (shift 0), and each further binade adds
one bit of shift. -/
def f32shift (a : ℕ) : ℕ :=
  if a ≤ 2 ^ 24 then 0
  else if a < 2 ^ 25 then 1
  else if a < 2 ^ 26 then 2
  else if a < 2 ^ 27 then 3
  else if a < 2 ^ 28 then 4
  else if a < 2 ^ 29 then 5
  else if a < 2 ^ 30 then 6
  else if a < 2 ^ 31 then 7
  else 8

/-- The integer value of `float(n)` for a 32-bit `int` `n`: IEEE-754
binary32 conversion with round-to-nearest, ties to even.  Magnitudes up to
2^24 convert exactly; larger magnitudes are rounded to a multiple of
`2 ^ f32shift |n|` (every such float value is itself an integer, so the
conversion is modelled as an integer-valued rounding). -/
def f32round (n : ℤ) : ℤ :=
  let a := n.natAbs
  let p := (2 : ℕ) ^ f32shift a
  let q := a / p
  let r := a % p
  let rounded :=
    if 2 * r < p then q
    else if p < 2 * r then q + 1
    else if q % 2 = 0 then q
    else q + 1
  if n < 0 then -((rounded : ℤ) * (p : ℤ)) else (rounded : ℤ) * (p : ℤ)

/-- Shallow embedding of `UtilsOpenCV::CropToSize`: clamps the pixel
coordinates via `min` then `max` against `float(size.width-1)` and
`float(size.height-1)`.  The `min`/`max` operations on floats are exact and
are modelled over ℚ; the int→float conversions of the bounds round per
`f32round` (they are *not* exact above 2^24). -/
def CropToSize (px : Point2f) (size : SizeCV) : Point2f :=
  let x1 := min px.x ((f32round (size.width - 1) : ℤ) : ℚ)
  let x2 := max x1 (0 : ℚ)
  let y1 := min px.y ((f32round (size.height - 1) : ℤ) : ℚ)
  let y2 := max y1 (0 : ℚ)
  ⟨x2, y2⟩

/-- Shallow embedding of `UtilsOpenCV::Covariance_bvx2xvb`: reorders the
block entries of a 15×15 covariance from state ordering `[bias, vel, pose]`
to `[pose, vel, bias]`.  The result starts as a copy of the input; the code
then overwrites the pose/bias diagonal blocks, the `(0,6)`, `(0,9)` and
`(6,9)` off-diagonal blocks from the input, and fills their mirror blocks
with the transposes of the freshly written ones; the velocity diagonal
block is left in place. -/
def Covariance_bvx2xvb (M : Fin 15 → Fin 15 → ℚ) :
    Fin 15 → Fin 15 → ℚ := fun i j =>
  if hi6 : i.val < 6 then
    if hj6 : j.val < 6 then M ⟨i.val + 9, by omega⟩ ⟨j.val + 9, by omega⟩
    else if hj9 : j.val < 9 then M ⟨i.val + 9, by omega⟩ j
    else M ⟨i.val + 9, by omega⟩ ⟨j.val - 9, by omega⟩
  else if hi9 : i.val < 9 then
    if hj6 : j.val < 6 then M ⟨j.val + 9, by omega⟩ i
    else if hj9 : j.val < 9 then M i j
    else M i ⟨j.val - 9, by omega⟩
  else
    if hj6 : j.val < 6 then M ⟨j.val + 9, by omega⟩ ⟨i.val - 9, by omega⟩
    else if hj9 : j.val < 9 then M j ⟨i.val - 9, by omega⟩
    else M ⟨i.val - 9, by omega⟩ ⟨j.val - 9, by omega⟩

/-- The index permutation realized by `Covariance_bvx2xvb`: pose indices
(`0..5` in the result) come from `9..14`, velocity indices stay in place,
bias indices (`9..14` in the result) come from `0..5`. -/
def covPerm (i : Fin 15) : Fin 15 :=
  if h6 : i.val < 6 then ⟨i.val + 9, by omega⟩
  else if h9 : i.val < 9 then i
  else ⟨i.val - 9, by omega⟩

instance exceptDecidableEq {ε α : Type} [DecidableEq ε] [DecidableEq α] :
    DecidableEq (Except ε α)
  | .error e1, .error e2 =>
    if h : e1 = e2 then .isTrue (by rw [h])
    else .isFalse (by intro hc; injection hc; contradiction)
  | .error _, .ok _ => .isFalse fun hc => Except.noConfusion hc
  | .ok _, .error _ => .isFalse fun hc => Except.noConfusion hc
  | .ok a1, .ok a2 =>
    if h : a1 = a2 then .isTrue (by rw [h])
    else .isFalse (by intro hc; injection hc; contradiction)

/-!  Helper lemmas about timestamp-sorted sample lists. -/

lemma sorted_head_le {l : List InertialSample}
    (hs : l.Pairwise (fun a c => a.timestamp < c.timestamp))
    {h : InertialSample} (hh : l.head? = some h) :
    ∀ x ∈ l, h.timestamp ≤ x.timestamp := by
  cases l with
  | nil => cases hh
  | cons y t =>
    simp only [List.head?_cons, Option.some.injEq] at hh
    subst hh
    intro x hx
    rcases List.mem_cons.mp hx with rfl | hx
    · exact le_refl _
    · exact le_of_lt ((List.pairwise_cons.mp hs).1 x hx)

lemma sorted_le_getLast :
    ∀ {l : List InertialSample},
      l.Pairwise (fun a c => a.timestamp < c.timestamp) →
      ∀ {g : InertialSample}, l.getLast? = some g →
      ∀ x ∈ l, x.timestamp ≤ g.timestamp := by
  intro l
  induction l with
  | nil => intro _ g hg; cases hg
  | cons y t ih =>
    intro hs g hg x hx
    cases t with
    | nil =>
      simp only [List.getLast?_singleton, Option.some.injEq] at hg
      simp only [List.mem_singleton] at hx
      subst hg
      subst hx
      exact le_refl _
    | cons z t2 =>
      rw [List.getLast?_cons_cons] at hg
      have hs' := List.pairwise_cons.mp hs
      rcases List.mem_cons.mp hx with rfl | hx2
      · exact le_of_lt (hs'.1 g (List.mem_of_getLast?_eq_some hg))
      · exact ih hs'.2 hg x hx2

lemma findBelow_spec {l : List InertialSample}
    (hs : l.Pairwise (fun a c => a.timestamp < c.timestamp))
    {t : ℤ} {a : InertialSample} (ha : findBelow l t = some a) :
    a ∈ l ∧ a.timestamp < t
      ∧ ∀ x ∈ l, x.timestamp < t → x.timestamp ≤ a.timestamp := by
  unfold findBelow at ha
  have hmem := List.mem_of_getLast?_eq_some ha
  have h1 := List.mem_filter.mp hmem
  refine ⟨h1.1, by simpa using h1.2, ?_⟩
  intro x hx hxt
  have hxf : x ∈ l.filter (fun x => decide (x.timestamp < t)) :=
    List.mem_filter.mpr ⟨hx, by simpa using hxt⟩
  exact sorted_le_getLast (hs.filter _) ha x hxf

lemma findBelow_exists {l : List InertialSample} {t : ℤ}
    (h : ∃ x ∈ l, x.timestamp < t) : ∃ a, findBelow l t = some a := by
  unfold findBelow
  obtain ⟨x, hx, hxt⟩ := h
  have hxf : x ∈ l.filter (fun x => decide (x.timestamp < t)) :=
    List.mem_filter.mpr ⟨hx, by simpa using hxt⟩
  cases hl : (l.filter (fun x => decide (x.timestamp < t))).getLast? with
  | none =>
    rw [List.getLast?_eq_none_iff] at hl
    rw [hl] at hxf
    cases hxf
  | some a => exact ⟨a, rfl⟩

lemma findAbove_spec {l : List InertialSample}
    (hs : l.Pairwise (fun a c => a.timestamp < c.timestamp))
    {t : ℤ} {b : InertialSample} (hb : findAbove l t = some b) :
    b ∈ l ∧ t < b.timestamp
      ∧ ∀ x ∈ l, t < x.timestamp → b.timestamp ≤ x.timestamp := by
  unfold findAbove at hb
  cases hfl : l.filter (fun x => decide (t < x.timestamp)) with
  | nil =>
    rw [hfl] at hb
    cases hb
  | cons y t2 =>
    rw [hfl] at hb
    simp only [List.head?_cons, Option.some.injEq] at hb
    subst hb
    have hmem : y ∈ l.filter (fun x => decide (t < x.timestamp)) := by
      rw [hfl]
      exact List.mem_cons_self _ _
    have h1 := List.mem_filter.mp hmem
    refine ⟨h1.1, by simpa using h1.2, ?_⟩
    intro x hx hxt
    have hxf : x ∈ l.filter (fun x => decide (t < x.timestamp)) :=
      List.mem_filter.mpr ⟨hx, by simpa using hxt⟩
    have hh : (l.filter (fun x => decide (t < x.timestamp))).head? = some y := by
      rw [hfl]
      rfl
    exact sorted_head_le (hs.filter _) hh x hxf

lemma findAbove_exists {l : List InertialSample} {t : ℤ}
    (h : ∃ x ∈ l, t < x.timestamp) : ∃ b, findAbove l t = some b := by
  unfold findAbove
  obtain ⟨x, hx, hxt⟩ := h
  have hxf : x ∈ l.filter (fun x => decide (t < x.timestamp)) :=
    List.mem_filter.mpr ⟨hx, by simpa using hxt⟩
  cases hl : l.filter (fun x => decide (t < x.timestamp)) with
  | nil =>
    rw [hl] at hxf
    cases hxf
  | cons y t2 => exact ⟨y, rfl⟩

lemma mem_midSamples {l : List InertialSample} {s e : ℤ}
    {x : InertialSample} :
    x ∈ midSamples l s e ↔
      x ∈ l ∧ s ≤ x.timestamp ∧ x.timestamp ≤ e := by
  unfold midSamples
  simp [List.mem_filter]

lemma midSamples_sorted {l : List InertialSample} {s e : ℤ}
    (hs : l.Pairwise (fun a c => a.timestamp < c.timestamp)) :
    (midSamples l s e).Pairwise (fun a c => a.timestamp < c.timestamp) :=
  hs.filter _

lemma hasExact_iff {l : List InertialSample} {t : ℤ} :
    hasExact l t = true ↔ ∃ x ∈ l, x.timestamp = t := by
  unfold hasExact
  simp [List.any_eq_true]

lemma hasExact_false {l : List InertialSample} {t : ℤ}
    (h : hasExact l t ≠ true) : ∀ x ∈ l, x.timestamp ≠ t := by
  intro x hx hxt
  exact h (hasExact_iff.mpr ⟨x, hx, hxt⟩)

lemma lerpSample_ts (a b : InertialSample) (t : ℤ) :
    (lerpSample a b t).timestamp = t := rfl

lemma midSamples_head_exact {l : List InertialSample} {s e : ℤ}
    (hs : l.Pairwise (fun a c => a.timestamp < c.timestamp))
    (hse : s ≤ e) {xs : InertialSample} (hxs : xs ∈ l)
    (hts : xs.timestamp = s) :
    ∃ h0, (midSamples l s e).head? = some h0 ∧ h0.timestamp = s := by
  have hxm : xs ∈ midSamples l s e :=
    mem_midSamples.mpr ⟨hxs, by omega, by omega⟩
  cases hh : (midSamples l s e).head? with
  | none =>
    rw [List.head?_eq_none_iff] at hh
    rw [hh] at hxm
    cases hxm
  | some h0 =>
    have h0mem : h0 ∈ midSamples l s e :=
      List.mem_of_mem_head? (by rw [hh]; rfl)
    have h1 := (mem_midSamples.mp h0mem).2.1
    have h2 := sorted_head_le (midSamples_sorted hs) hh xs hxm
    exact ⟨h0, rfl, by omega⟩

lemma midSamples_last_exact {l : List InertialSample} {s e : ℤ}
    (hs : l.Pairwise (fun a c => a.timestamp < c.timestamp))
    (hse : s ≤ e) {xe : InertialSample} (hxe : xe ∈ l)
    (hts : xe.timestamp = e) :
    ∃ h1, (midSamples l s e).getLast? = some h1 ∧ h1.timestamp = e := by
  have hxm : xe ∈ midSamples l s e :=
    mem_midSamples.mpr ⟨hxe, by omega, by omega⟩
  cases hh : (midSamples l s e).getLast? with
  | none =>
    rw [List.getLast?_eq_none_iff] at hh
    rw [hh] at hxm
    cases hxm
  | some h1 =>
    have h1mem : h1 ∈ midSamples l s e := List.mem_of_getLast?_eq_some hh
    have ha := (mem_midSamples.mp h1mem).2.2
    have hb := sorted_le_getLast (midSamples_sorted hs) hh xe hxm
    exact ⟨h1, rfl, by omega⟩

lemma midSamples_ne_nil_of_exact_start {l : List InertialSample}
    {s e : ℤ} (hse : s ≤ e) {xs : InertialSample} (hxs : xs ∈ l)
    (hts : xs.timestamp = s) : midSamples l s e ≠ [] := by
  intro hnil
  have hxm : xs ∈ midSamples l s e :=
    mem_midSamples.mpr ⟨hxs, by omega, by omega⟩
  rw [hnil] at hxm
  cases hxm

lemma midSamples_ne_nil_of_exact_end {l : List InertialSample}
    {s e : ℤ} (hse : s ≤ e) {xe : InertialSample} (hxe : xe ∈ l)
    (hts : xe.timestamp = e) : midSamples l s e ≠ [] := by
  intro hnil
  have hxm : xe ∈ midSamples l s e :=
    mem_midSamples.mpr ⟨hxe, by omega, by omega⟩
  rw [hnil] at hxm
  cases hxm

lemma withStart_exact {l : List InertialSample} {s e : ℤ}
    (hAs : hasExact l s = true) :
    withStartBoundary l s e = midSamples l s e := by
  unfold withStartBoundary
  rw [if_pos hAs]

lemma withStart_interp {l : List InertialSample} {s e : ℤ}
    (hAs : ¬hasExact l s = true) {a bb : InertialSample}
    (ha : findBelow l s = some a) (hb : findAbove l s = some bb) :
    withStartBoundary l s e = lerpSample a bb s :: midSamples l s e := by
  unfold withStartBoundary
  rw [if_neg hAs, ha, hb]

lemma buildInterval_exact {l : List InertialSample} {s e : ℤ}
    (hAe : hasExact l e = true) :
    buildInterval l s e = withStartBoundary l s e := by
  unfold buildInterval
  rw [if_pos hAe]

lemma buildInterval_interp {l : List InertialSample} {s e : ℤ}
    (hAe : ¬hasExact l e = true) {a bb : InertialSample}
    (ha : findBelow l e = some a) (hb : findAbove l e = some bb) :
    buildInterval l s e = withStartBoundary l s e ++ [lerpSample a bb e] := by
  unfold buildInterval
  rw [if_neg hAe, ha, hb]

-- The full functional characterization of `buildInterval` on a sorted list
-- with retained coverage of the queried interval on both sides.
lemma buildInterval_spec {l : List InertialSample} {s e : ℤ}
    (hs : l.Pairwise (fun a c => a.timestamp < c.timestamp))
    {f g : InertialSample}
    (hf : l.head? = some f) (hfs : f.timestamp ≤ s)
    (hg : l.getLast? = some g) (hge : e ≤ g.timestamp)
    (hse : s < e) :
    (buildInterval l s e).Pairwise (fun a c => a.timestamp < c.timestamp)
    ∧ (∀ x ∈ l, s ≤ x.timestamp → x.timestamp ≤ e →
        x ∈ buildInterval l s e)
    ∧ (∀ x ∈ buildInterval l s e, s ≤ x.timestamp ∧ x.timestamp ≤ e)
    ∧ (∃ h0, (buildInterval l s e).head? = some h0 ∧ h0.timestamp = s)
    ∧ (∃ h1, (buildInterval l s e).getLast? = some h1 ∧ h1.timestamp = e)
    ∧ ((∀ x ∈ l, x.timestamp ≠ s) →
        ∃ a bb, a ∈ l ∧ bb ∈ l ∧ a.timestamp < s ∧ s < bb.timestamp
          ∧ (∀ x ∈ l, x.timestamp < s → x.timestamp ≤ a.timestamp)
          ∧ (∀ x ∈ l, s < x.timestamp → bb.timestamp ≤ x.timestamp)
          ∧ (buildInterval l s e).head? = some (lerpSample a bb s))
    ∧ ((∀ x ∈ l, x.timestamp ≠ e) →
        ∃ a bb, a ∈ l ∧ bb ∈ l ∧ a.timestamp < e ∧ e < bb.timestamp
          ∧ (∀ x ∈ l, x.timestamp < e → x.timestamp ≤ a.timestamp)
          ∧ (∀ x ∈ l, e < x.timestamp → bb.timestamp ≤ x.timestamp)
          ∧ (buildInterval l s e).getLast? = some (lerpSample a bb e)) := by
  have hfmem : f ∈ l := List.mem_of_mem_head? (by rw [hf]; rfl)
  have hgmem : g ∈ l := List.mem_of_getLast?_eq_some hg
  have hmids := midSamples_sorted (s := s) (e := e) hs
  have hmid_sound : ∀ x ∈ midSamples l s e,
      s ≤ x.timestamp ∧ x.timestamp ≤ e :=
    fun x hx => (mem_midSamples.mp hx).2
  have hmid_mem : ∀ x ∈ l, s ≤ x.timestamp → x.timestamp ≤ e →
      x ∈ midSamples l s e :=
    fun x hx h1 h2 => mem_midSamples.mpr ⟨hx, h1, h2⟩
  by_cases hAs : hasExact l s = true
  · obtain ⟨xs, hxsl, hxts⟩ := hasExact_iff.mp hAs
    obtain ⟨h0, hh0, hh0s⟩ :=
      midSamples_head_exact (e := e) hs (le_of_lt hse) hxsl hxts
    have hmid_ne : midSamples l s e ≠ [] :=
      midSamples_ne_nil_of_exact_start (le_of_lt hse) hxsl hxts
    by_cases hAe : hasExact l e = true
    · obtain ⟨xe, hxel, hxte⟩ := hasExact_iff.mp hAe
      obtain ⟨h1, hh1, hh1e⟩ :=
        midSamples_last_exact (s := s) hs (le_of_lt hse) hxel hxte
      have hr : buildInterval l s e = midSamples l s e := by
        rw [buildInterval_exact hAe, withStart_exact hAs]
      rw [hr]
      refine ⟨hmids, hmid_mem, hmid_sound, ⟨h0, hh0, hh0s⟩,
        ⟨h1, hh1, hh1e⟩, ?_, ?_⟩
      · intro hno
        exact absurd hxts (hno xs hxsl)
      · intro hno
        exact absurd hxte (hno xe hxel)
    · have hnoE := hasExact_false hAe
      have hflt_e : f.timestamp < e := lt_of_le_of_lt hfs hse
      obtain ⟨a2, ha2⟩ := findBelow_exists ⟨f, hfmem, hflt_e⟩
      have hgt_e : e < g.timestamp :=
        lt_of_le_of_ne hge (Ne.symm (hnoE g hgmem))
      obtain ⟨b2, hb2⟩ := findAbove_exists ⟨g, hgmem, hgt_e⟩
      obtain ⟨ha2l, ha2lt, ha2max⟩ := findBelow_spec hs ha2
      obtain ⟨hb2l, hb2gt, hb2min⟩ := findAbove_spec hs hb2
      have hr : buildInterval l s e =
          midSamples l s e ++ [lerpSample a2 b2 e] := by
        rw [buildInterval_interp hAe ha2 hb2, withStart_exact hAs]
      rw [hr]
      refine ⟨?_, ?_, ?_, ?_, ?_, ?_, ?_⟩
      · rw [List.pairwise_append]
        refine ⟨hmids, List.pairwise_singleton _ _, ?_⟩
        intro x hx y hy
        rw [List.mem_singleton] at hy
        subst hy
        rw [lerpSample_ts]
        have h1 := (hmid_sound x hx).2
        have h2 := hnoE x (mem_midSamples.mp hx).1
        omega
      · intro x hx h1 h2
        exact List.mem_append_left _ (hmid_mem x hx h1 h2)
      · intro x hx
        rcases List.mem_append.mp hx with hx | hx
        · exact hmid_sound x hx
        · rw [List.mem_singleton] at hx
          subst hx
          rw [lerpSample_ts]
          exact ⟨le_of_lt hse, le_refl e⟩
      · rw [List.head?_append_of_ne_nil _ hmid_ne]
        exact ⟨h0, hh0, hh0s⟩
      · exact ⟨lerpSample a2 b2 e, List.getLast?_concat _, lerpSample_ts _ _ _⟩
      · intro hno
        exact absurd hxts (hno xs hxsl)
      · intro hno
        exact ⟨a2, b2, ha2l, hb2l, ha2lt, hb2gt, ha2max, hb2min,
          List.getLast?_concat _⟩
  · have hnoS := hasExact_false hAs
    have hflt : f.timestamp < s := lt_of_le_of_ne hfs (hnoS f hfmem)
    obtain ⟨a1, ha1⟩ := findBelow_exists ⟨f, hfmem, hflt⟩
    have hsg : s < g.timestamp := lt_of_lt_of_le hse hge
    obtain ⟨b1, hb1⟩ := findAbove_exists ⟨g, hgmem, hsg⟩
    obtain ⟨ha1l, ha1lt, ha1max⟩ := findBelow_spec hs ha1
    obtain ⟨hb1l, hb1gt, hb1min⟩ := findAbove_spec hs hb1
    have hcons_sorted :
        (lerpSample a1 b1 s :: midSamples l s e).Pairwise
          (fun a c => a.timestamp < c.timestamp) := by
      rw [List.pairwise_cons]
      refine ⟨?_, hmids⟩
      intro x hx
      rw [lerpSample_ts]
      have h1 := (hmid_sound x hx).1
      have h2 := hnoS x (mem_midSamples.mp hx).1
      omega
    by_cases hAe : hasExact l e = true
    · obtain ⟨xe, hxel, hxte⟩ := hasExact_iff.mp hAe
      obtain ⟨h1, hh1, hh1e⟩ :=
        midSamples_last_exact (s := s) hs (le_of_lt hse) hxel hxte
      have hmid_ne : midSamples l s e ≠ [] :=
        midSamples_ne_nil_of_exact_end (le_of_lt hse) hxel hxte
      have hr : buildInterval l s e =
          lerpSample a1 b1 s :: midSamples l s e := by
        rw [buildInterval_exact hAe, withStart_interp hAs ha1 hb1]
      rw [hr]
      refine ⟨hcons_sorted, ?_, ?_, ?_, ?_, ?_, ?_⟩
      · intro x hx h1' h2'
        exact List.mem_cons_of_mem _ (hmid_mem x hx h1' h2')
      · intro x hx
        rcases List.mem_cons.mp hx with rfl | hx
        · rw [lerpSample_ts]
          exact ⟨le_refl s, le_of_lt hse⟩
        · exact hmid_sound x hx
      · exact ⟨lerpSample a1 b1 s, rfl, lerpSample_ts _ _ _⟩
      · rw [show lerpSample a1 b1 s :: midSamples l s e =
            [lerpSample a1 b1 s] ++ midSamples l s e from rfl,
          List.getLast?_append_of_ne_nil _ hmid_ne]
        exact ⟨h1, hh1, hh1e⟩
      · intro _
        exact ⟨a1, b1, ha1l, hb1l, ha1lt, hb1gt, ha1max, hb1min, rfl⟩
      · intro hno
        exact absurd hxte (hno xe hxel)
    · have hnoE := hasExact_false hAe
      have hflt_e : f.timestamp < e := lt_of_le_of_lt hfs hse
      obtain ⟨a2, ha2⟩ := findBelow_exists ⟨f, hfmem, hflt_e⟩
      have hgt_e : e < g.timestamp :=
        lt_of_le_of_ne hge (Ne.symm (hnoE g hgmem))
      obtain ⟨b2, hb2⟩ := findAbove_exists ⟨g, hgmem, hgt_e⟩
      obtain ⟨ha2l, ha2lt, ha2max⟩ := findBelow_spec hs ha2
      obtain ⟨hb2l, hb2gt, hb2min⟩ := findAbove_spec hs hb2
      have hr : buildInterval l s e =
          (lerpSample a1 b1 s :: midSamples l s e) ++ [lerpSample a2 b2 e] := by
        rw [buildInterval_interp hAe ha2 hb2, withStart_interp hAs ha1 hb1]
      rw [hr]
      refine ⟨?_, ?_, ?_, ?_, ?_, ?_, ?_⟩
      · rw [List.pairwise_append]
        refine ⟨hcons_sorted, List.pairwise_singleton _ _, ?_⟩
        intro x hx y hy
        rw [List.mem_singleton] at hy
        subst hy
        rw [lerpSample_ts]
        rcases List.mem_cons.mp hx with rfl | hx
        · rw [lerpSample_ts]
          exact hse
        · have h1 := (hmid_sound x hx).2
          have h2 := hnoE x (mem_midSamples.mp hx).1
          omega
      · intro x hx h1' h2'
        exact List.mem_append_left _
          (List.mem_cons_of_mem _ (hmid_mem x hx h1' h2'))
      · intro x hx
        rcases List.mem_append.mp hx with hx | hx
        · rcases List.mem_cons.mp hx with rfl | hx
          · rw [lerpSample_ts]
            exact ⟨le_refl s, le_of_lt hse⟩
          · exact hmid_sound x hx
        · rw [List.mem_singleton] at hx
          subst hx
          rw [lerpSample_ts]
          exact ⟨le_of_lt hse, le_refl e⟩
      · exact ⟨lerpSample a1 b1 s, rfl, lerpSample_ts _ _ _⟩
      · exact ⟨lerpSample a2 b2 e, List.getLast?_concat _, lerpSample_ts _ _ _⟩
      · intro _
        exact ⟨a1, b1, ha1l, hb1l, ha1lt, hb1gt, ha1max, hb1min, rfl⟩
      · intro _
        exact ⟨a2, b2, ha2l, hb2l, ha2lt, hb2gt, ha2max, hb2min,
          List.getLast?_concat _⟩

-- A call with retained coverage on both sides of the interval succeeds.
lemma extract_ok_of_coverage {b : InertialSampleBuffer} {s e : ℤ}
    {f g : InertialSample}
    (hf : b.samples.head? = some f) (hfs : f.timestamp ≤ s)
    (hg : b.samples.getLast? = some g) (hge : e ≤ g.timestamp) :
    (extract_interval b s e).1 =
      Except.ok (buildInterval b.samples s e) := by
  unfold extract_interval
  rw [hg]
  dsimp only
  rw [if_neg (not_lt.mpr hge), hf]
  dsimp only
  rw [if_neg (not_lt.mpr hfs)]

/-!  Claim theorems. -/

/-- A sample of the end-to-end scenario of §8: at timestamp `t` the
angular-velocity x-component and linear-acceleration y-component are both
`t`, so that linear interpolation in time is visible in the values. -/
def exSample (t : ℤ) : InertialSample :=
  ⟨t, ⟨(t : ℚ), 0, 0⟩, ⟨0, (t : ℚ), 0⟩⟩

/-- The buffer of the end-to-end scenario of §8: samples at
t = 0, 10, ..., 100. -/
def exampleBuffer : InertialSampleBuffer :=
  ⟨[exSample 0, exSample 10, exSample 20, exSample 30, exSample 40,
    exSample 50, exSample 60, exSample 70, exSample 80, exSample 90,
    exSample 100]⟩

/-- Claim C1: for every buffer whose samples are strictly increasing in
timestamp and every query `[start_ts, end_ts]` with sufficient retained
coverage (oldest retained ≤ `start_ts` < `end_ts` ≤ newest retained),
`extract_interval` succeeds and returns an ordered (strictly increasing)
sequence that contains all retained samples inside `[start_ts, end_ts]`,
contains only samples with timestamps in that range, starts exactly at
`start_ts` and ends exactly at `end_ts` — using the retained samples when
they sit exactly on a boundary and otherwise synthesizing the boundary
sample by linear interpolation of the nearest bracketing samples.  In
particular, with samples at t = 0, 10, ..., 100, `extract_interval(50, 73)`
returns the samples at 50, 60, 70 plus a sample at 73 linearly interpolated
from the 70 and 80 samples. -/
theorem claim_C1 :
    (∀ (b : InertialSampleBuffer) (s e : ℤ) (f g : InertialSample),
      BufferWF b →
      b.samples.head? = some f → f.timestamp ≤ s →
      b.samples.getLast? = some g → e ≤ g.timestamp → s < e →
      (extract_interval b s e).1 =
        Except.ok (buildInterval b.samples s e)
      ∧ (buildInterval b.samples s e).Pairwise
          (fun a c => a.timestamp < c.timestamp)
      ∧ (∀ x ∈ b.samples, s ≤ x.timestamp → x.timestamp ≤ e →
          x ∈ buildInterval b.samples s e)
      ∧ (∀ x ∈ buildInterval b.samples s e,
          s ≤ x.timestamp ∧ x.timestamp ≤ e)
      ∧ (∃ h0, (buildInterval b.samples s e).head? = some h0
          ∧ h0.timestamp = s)
      ∧ (∃ h1, (buildInterval b.samples s e).getLast? = some h1
          ∧ h1.timestamp = e)
      ∧ ((∀ x ∈ b.samples, x.timestamp ≠ s) →
          ∃ a bb, a ∈ b.samples ∧ bb ∈ b.samples
            ∧ a.timestamp < s ∧ s < bb.timestamp
            ∧ (∀ x ∈ b.samples, x.timestamp < s → x.timestamp ≤ a.timestamp)
            ∧ (∀ x ∈ b.samples, s < x.timestamp → bb.timestamp ≤ x.timestamp)
            ∧ (buildInterval b.samples s e).head? =
                some (lerpSample a bb s))
      ∧ ((∀ x ∈ b.samples, x.timestamp ≠ e) →
          ∃ a bb, a ∈ b.samples ∧ bb ∈ b.samples
            ∧ a.timestamp < e ∧ e < bb.timestamp
            ∧ (∀ x ∈ b.samples, x.timestamp < e → x.timestamp ≤ a.timestamp)
            ∧ (∀ x ∈ b.samples, e < x.timestamp → bb.timestamp ≤ x.timestamp)
            ∧ (buildInterval b.samples s e).getLast? =
                some (lerpSample a bb e)))
    ∧ (extract_interval exampleBuffer 50 73).1 =
        Except.ok [exSample 50, exSample 60, exSample 70,
          lerpSample (exSample 70) (exSample 80) 73]
    ∧ lerpSample (exSample 70) (exSample 80) 73 = exSample 73 := by
  refine ⟨?_, rfl, by norm_num [lerpSample, lerpVec, lerpQ, exSample]⟩
  intro b s e f g hwf hf hfs hg hge hse
  exact ⟨extract_ok_of_coverage hf hfs hg hge,
    buildInterval_spec hwf hf hfs hg hge hse⟩

/-- Witness for claim C1: the coverage hypotheses hold for the §8 example
buffer on the query `[50, 73]`, and the extraction succeeds there. -/
theorem claim_C1_witness :
    BufferWF exampleBuffer
    ∧ exampleBuffer.samples.head? = some (exSample 0)
    ∧ (exSample 0).timestamp ≤ 50
    ∧ exampleBuffer.samples.getLast? = some (exSample 100)
    ∧ (73 : ℤ) ≤ (exSample 100).timestamp
    ∧ (50 : ℤ) < 73
    ∧ (extract_interval exampleBuffer 50 73).1 =
        Except.ok (buildInterval exampleBuffer.samples 50 73) := by
  have hwf : BufferWF exampleBuffer := by
    unfold BufferWF exampleBuffer exSample
    norm_num [List.pairwise_cons]
  refine ⟨hwf, rfl, by decide, rfl, by decide, by decide, ?_⟩
  exact (claim_C1.1 exampleBuffer 50 73 (exSample 0) (exSample 100)
    hwf rfl (by decide) rfl (by decide) (by decide)).1

/-- Claim C2: for every buffer state and every sample,
`insert(sample)` fails with `OutOfOrderInsertion` if and only if the
sample's timestamp is not strictly greater than the timestamp of some
previously inserted and not-yet-purged sample, and when it fails the
buffer's contents are left completely unchanged. -/
theorem claim_C2 (b : InertialSampleBuffer) (s : InertialSample) :
    ((insertSample b s).1 = some BufferError.OutOfOrderInsertion ↔
      ∃ p ∈ b.samples, s.timestamp ≤ p.timestamp)
    ∧ ((insertSample b s).1 = some BufferError.OutOfOrderInsertion →
      (insertSample b s).2 = b) := by
  by_cases h : b.samples.all (fun p => decide (p.timestamp < s.timestamp)) = true
  · have h' : ∀ p ∈ b.samples, p.timestamp < s.timestamp := by simpa using h
    constructor
    · constructor
      · intro hc
        rw [insertSample, if_pos h] at hc
        simp at hc
      · rintro ⟨p, hp, hle⟩
        exact absurd (h' p hp) (not_lt.mpr hle)
    · intro hc
      rw [insertSample, if_pos h] at hc
      simp at hc
  · have h' : ∃ p ∈ b.samples, s.timestamp ≤ p.timestamp := by
      simp only [List.all_eq_true, decide_eq_true_eq] at h
      push_neg at h
      obtain ⟨p, hp, hnl⟩ := h
      exact ⟨p, hp, hnl⟩
    refine ⟨⟨fun _ => h', fun _ => ?_⟩, fun _ => ?_⟩
    · rw [insertSample, if_neg h]
    · rw [insertSample, if_neg h]

/-- A one-sample buffer used to witness claim C2 at a concrete input. -/
def w2buf : InertialSampleBuffer := ⟨[⟨5, ⟨0, 0, 0⟩, ⟨0, 0, 0⟩⟩]⟩

/-- An out-of-order sample used to witness claim C2 at a concrete input. -/
def w2s : InertialSample := ⟨3, ⟨0, 0, 0⟩, ⟨0, 0, 0⟩⟩

/-- Witness for claim C2 at a concrete buffer and sample. -/
theorem claim_C2_witness :
    ((insertSample w2buf w2s).1 = some BufferError.OutOfOrderInsertion ↔
      ∃ p ∈ w2buf.samples, w2s.timestamp ≤ p.timestamp)
    ∧ ((insertSample w2buf w2s).1 = some BufferError.OutOfOrderInsertion →
      (insertSample w2buf w2s).2 = w2buf) :=
  claim_C2 w2buf w2s

-- Case analysis on `extract_interval`: it either fails and leaves the
-- buffer unchanged, or succeeds with the covering interval and purges the
-- samples strictly older than `start_ts`.
lemma extract_cases (b : InertialSampleBuffer) (s e : ℤ) :
    ((extract_interval b s e).2 = b
      ∧ ∃ err, (extract_interval b s e).1 = Except.error err)
    ∨ ((extract_interval b s e).1 = Except.ok (buildInterval b.samples s e)
      ∧ (extract_interval b s e).2 =
        ⟨b.samples.filter (fun x => decide (s ≤ x.timestamp))⟩) := by
  unfold extract_interval
  cases b.samples.getLast? with
  | none => exact Or.inl ⟨rfl, _, rfl⟩
  | some g =>
    dsimp only
    by_cases hlt : g.timestamp < e
    · rw [if_pos hlt]
      exact Or.inl ⟨rfl, _, rfl⟩
    · rw [if_neg hlt]
      cases b.samples.head? with
      | none => exact Or.inl ⟨rfl, _, rfl⟩
      | some f =>
        dsimp only
        by_cases hsf : s < f.timestamp
        · rw [if_pos hsf]
          exact Or.inl ⟨rfl, _, rfl⟩
        · rw [if_neg hsf]
          exact Or.inr ⟨rfl, rfl⟩

/-- Claim C3 (amended): `extract_interval` fails with `InsufficientData`
whenever the buffer is empty or the newest retained sample's timestamp is
less than `end_ts`; it fails with `DataGap` when the oldest retained
sample's timestamp is greater than `start_ts`, provided the newest
retained sample already covers `end_ts` (when both failure conditions
hold, `InsufficientData` takes precedence); and once an inertial sample
with timestamp ≥ `end_ts` has been successfully inserted, the same call
no longer fails with `InsufficientData`. -/
theorem claim_C3_amended (b : InertialSampleBuffer) (s e : ℤ) :
    (b.samples = [] →
      (extract_interval b s e).1 = Except.error BufferError.InsufficientData)
    ∧ (∀ g ∈ b.samples.getLast?, g.timestamp < e →
        (extract_interval b s e).1 =
          Except.error BufferError.InsufficientData)
    ∧ (∀ g ∈ b.samples.getLast?, e ≤ g.timestamp →
        ∀ f ∈ b.samples.head?, s < f.timestamp →
        (extract_interval b s e).1 = Except.error BufferError.DataGap)
    ∧ (∀ x : InertialSample, e ≤ x.timestamp → (insertSample b x).1 = none →
        (extract_interval (insertSample b x).2 s e).1 ≠
          Except.error BufferError.InsufficientData) := by
  refine ⟨?_, ?_, ?_, ?_⟩
  · intro h
    unfold extract_interval
    rw [h]
    rfl
  · intro g hg hlt
    have hg' : b.samples.getLast? = some g := hg
    unfold extract_interval
    rw [hg']
    dsimp only
    rw [if_pos hlt]
  · intro g hg hge f hf hsf
    have hg' : b.samples.getLast? = some g := hg
    have hf' : b.samples.head? = some f := hf
    unfold extract_interval
    rw [hg']
    dsimp only
    rw [if_neg (not_lt.mpr hge), hf']
    dsimp only
    rw [if_pos hsf]
  · intro x hxe hins
    by_cases h : b.samples.all (fun p => decide (p.timestamp < x.timestamp)) = true
    · have h2 : (insertSample b x).2 = ⟨b.samples ++ [x]⟩ := by
        rw [insertSample, if_pos h]
      rw [h2]
      unfold extract_interval
      rw [List.getLast?_concat]
      dsimp only
      rw [if_neg (not_lt.mpr hxe)]
      cases hh : (b.samples ++ [x]).head? with
      | none =>
        rw [List.head?_eq_none_iff] at hh
        simp at hh
      | some f =>
        dsimp only
        by_cases hsf : s < f.timestamp
        · rw [if_pos hsf]
          simp
        · rw [if_neg hsf]
          simp
    · rw [insertSample, if_neg h] at hins
      simp at hins

/-- A buffer whose oldest retained sample (t = 5) is newer than the queried
`start_ts = 0` while its newest sample (t = 5) is older than
`end_ts = 10`. -/
def gapBuffer : InertialSampleBuffer := ⟨[⟨5, ⟨0, 0, 0⟩, ⟨0, 0, 0⟩⟩]⟩

/-- Counterexample to claim C3 as stated: on a buffer whose oldest retained
sample's timestamp (5) is greater than `start_ts` (0), the call does not
fail with `DataGap` — it fails with `InsufficientData`, because the
newest-sample check comes first. -/
theorem claim_C3_counterexample :
    (∃ f ∈ gapBuffer.samples.head?, (0 : ℤ) < f.timestamp)
    ∧ (extract_interval gapBuffer 0 10).1 =
        Except.error BufferError.InsufficientData
    ∧ (extract_interval gapBuffer 0 10).1 ≠
        Except.error BufferError.DataGap := by
  refine ⟨⟨⟨5, ⟨0, 0, 0⟩, ⟨0, 0, 0⟩⟩, rfl, by decide⟩, rfl, ?_⟩
  intro h
  rw [show (extract_interval gapBuffer 0 10).1 =
    Except.error BufferError.InsufficientData from rfl] at h
  injection h with h2
  cases h2

/-- Witness for claim C3 (amended) at a concrete buffer, discharging the
newest-too-old hypothesis. -/
theorem claim_C3_amended_witness :
    (extract_interval gapBuffer 0 10).1 =
      Except.error BufferError.InsufficientData :=
  (claim_C3_amended gapBuffer 0 10).2.1 ⟨5, ⟨0, 0, 0⟩, ⟨0, 0, 0⟩⟩ rfl
    (by decide)

/-- Claim C4: after every successful `extract_interval(start_ts, end_ts)`,
exactly the samples with timestamp strictly less than `start_ts` have been
removed from the buffer (membership in the purged buffer is equivalent to
prior membership plus `start_ts ≤ timestamp`), the surviving samples keep
their relative order (the purged buffer is a sublist of the original), and
a failed extraction leaves the buffer completely unchanged. -/
theorem claim_C4 (b : InertialSampleBuffer) (s e : ℤ) :
    (∀ r, (extract_interval b s e).1 = Except.ok r →
      ((extract_interval b s e).2.samples.Sublist b.samples
        ∧ ∀ x, x ∈ (extract_interval b s e).2.samples ↔
            x ∈ b.samples ∧ s ≤ x.timestamp))
    ∧ (∀ err, (extract_interval b s e).1 = Except.error err →
        (extract_interval b s e).2 = b) := by
  rcases extract_cases b s e with ⟨h2, err, h1⟩ | ⟨h1, h2⟩
  · constructor
    · intro r hr
      rw [h1] at hr
      cases hr
    · intro _ _
      exact h2
  · constructor
    · intro r _
      rw [h2]
      refine ⟨List.filter_sublist _, fun x => ?_⟩
      simp [List.mem_filter]
    · intro err hr
      rw [h1] at hr
      cases hr

/-- A five-sample buffer used to witness claim C4 at a concrete input. -/
def w4buf : InertialSampleBuffer :=
  ⟨[⟨0, ⟨0, 0, 0⟩, ⟨0, 0, 0⟩⟩, ⟨10, ⟨1, 0, 0⟩, ⟨0, 0, 0⟩⟩,
    ⟨20, ⟨2, 0, 0⟩, ⟨0, 0, 0⟩⟩, ⟨30, ⟨3, 0, 0⟩, ⟨0, 0, 0⟩⟩,
    ⟨40, ⟨4, 0, 0⟩, ⟨0, 0, 0⟩⟩]⟩

/-- Witness for claim C4 at a concrete buffer: a successful extraction on
`[20, 40]` leaves exactly the samples with timestamp ≥ 20. -/
theorem claim_C4_witness :
    (extract_interval w4buf 20 40).2.samples.Sublist w4buf.samples
    ∧ (⟨10, ⟨1, 0, 0⟩, ⟨0, 0, 0⟩⟩ : InertialSample) ∉
        (extract_interval w4buf 20 40).2.samples
    ∧ (⟨20, ⟨2, 0, 0⟩, ⟨0, 0, 0⟩⟩ : InertialSample) ∈
        (extract_interval w4buf 20 40).2.samples := by
  have h := (claim_C4 w4buf 20 40).1 (buildInterval w4buf.samples 20 40)
    (by decide)
  refine ⟨h.1, ?_, ?_⟩
  · intro hc
    have := (h.2 _).mp hc
    simp [w4buf] at this
  · exact (h.2 _).mpr ⟨by simp [w4buf], by decide⟩

/-- Claim C6: after `shutdown()` the Generic Blocking Queue behaves as
follows — `shutdown` is idempotent, every subsequent `push` fails
immediately with the `Closed` signal and changes nothing, no item pushed
before shutdown is lost (the retained items are exactly the pre-shutdown
items and remain poppable in FIFO order until drained), a `pop` on the
drained queue returns `Closed`, and a `pop` never blocks after shutdown,
returning either an item or `Closed`, never both. -/
theorem claim_C6 {α : Type} (q : BlockingQueue α) (a : α) :
    queueShutdown (queueShutdown q) = queueShutdown q
    ∧ (queuePush (queueShutdown q) a).1 = PushResult.closed
    ∧ (queuePush (queueShutdown q) a).2 = queueShutdown q
    ∧ (queueShutdown q).items = q.items
    ∧ (q.items = [] → (queuePop (queueShutdown q)).1 = PopResult.closed)
    ∧ (∀ x rest, q.items = x :: rest →
        (queuePop (queueShutdown q)).1 = PopResult.item x
        ∧ (queuePop (queueShutdown q)).2 = queueShutdown ⟨rest, q.isShutdown⟩)
    ∧ (queuePop (queueShutdown q)).1 ≠ PopResult.wouldBlock := by
  obtain ⟨items, sd⟩ := q
  refine ⟨rfl, rfl, rfl, rfl, ?_, ?_, ?_⟩
  · intro h
    subst h
    rfl
  · intro x rest h
    subst h
    exact ⟨rfl, rfl⟩
  · cases items <;> simp [queueShutdown, queuePop]

/-- Witness for claim C6 at concrete queues, discharging the drained-queue
and front-item hypotheses. -/
theorem claim_C6_witness :
    (queuePop (queueShutdown (⟨[], false⟩ : BlockingQueue ℕ))).1
      = PopResult.closed
    ∧ (queuePop (queueShutdown (⟨[7], false⟩ : BlockingQueue ℕ))).1
      = PopResult.item 7 :=
  ⟨(claim_C6 (⟨[], false⟩ : BlockingQueue ℕ) 0).2.2.2.2.1 rfl,
    ((claim_C6 (⟨[7], false⟩ : BlockingQueue ℕ) 0).2.2.2.2.2.1 7 [] rfl).1⟩

/-- Claim C8: for every Generic Temporal Buffer whose size is within its
configured maximum retained count, an insertion keeps the size within the
bound, and an insertion into a full buffer evicts exactly the single
oldest entry (the head of the time-ordered sequence, which is a
timestamp-minimal entry when the buffer is ordered) and nothing else. -/
theorem claim_C8 {V : Type} (b : GenericTemporalBuffer V) (ts : ℤ)
    (v : V) (hlen : b.entries.length ≤ b.cap) :
    (tbInsert b ts v).entries.length ≤ b.cap
    ∧ (b.entries.length = b.cap → 0 < b.cap →
        ∃ ev rest, b.entries = ev :: rest
          ∧ (tbInsert b ts v).entries = rest ++ [(ts, v)]
          ∧ (b.entries.Pairwise (fun p q => p.1 ≤ q.1) →
              ∀ x ∈ b.entries, ev.1 ≤ x.1)) := by
  obtain ⟨cap, entries⟩ := b
  simp only at hlen ⊢
  constructor
  · simp only [tbInsert]
    by_cases h : cap < (entries ++ [(ts, v)]).length
    · simp only [if_pos h]
      cases entries with
      | nil => simp
      | cons y t =>
        simp at hlen ⊢
        omega
    · simp only [if_neg h]
      simp at h ⊢
      omega
  · intro hfull hpos
    cases entries with
    | nil =>
      simp at hfull
      omega
    | cons y t =>
      refine ⟨y, t, rfl, ?_, ?_⟩
      · have h : cap < ((y :: t) ++ [(ts, v)]).length := by
          simp at hfull ⊢
          omega
        simp only [tbInsert, if_pos h]
        simp
      · intro hsorted x hx
        rcases List.mem_cons.mp hx with rfl | hxt
        · exact le_refl _
        · exact (List.pairwise_cons.mp hsorted).1 x hxt

/-- A concrete full temporal buffer used to witness claim C8. -/
def w8buf : GenericTemporalBuffer ℕ := ⟨2, [(1, 10), (2, 20)]⟩

/-- Witness for claim C8 at a concrete full buffer: the size bound and the
eviction of exactly the oldest entry. -/
theorem claim_C8_witness :
    (tbInsert w8buf 3 30).entries.length ≤ w8buf.cap
    ∧ (tbInsert w8buf 3 30).entries = [(2, 20), (3, 30)] := by
  have h := claim_C8 w8buf 3 30 (by decide)
  refine ⟨h.1, ?_⟩
  obtain ⟨ev, rest, h1, h2, _⟩ := h.2 (by decide) (by decide)
  have hev : ev = (1, 10) ∧ rest = [(2, 20)] := by
    have := h1
    simp [w8buf] at this
    exact ⟨this.1.symm, this.2.symm⟩
  rw [h2, hev.2]
  rfl

lemma f32round_exact {n : ℤ} (h0 : 0 ≤ n) (h24 : n ≤ 2 ^ 24) :
    f32round n = n := by
  have ha : n.natAbs ≤ 2 ^ 24 := by omega
  have hsh : f32shift n.natAbs = 0 := by
    unfold f32shift
    rw [if_pos ha]
  simp only [f32round, hsh, pow_zero, Nat.div_one, Nat.mod_one,
    Nat.mul_zero, Nat.zero_lt_one, if_pos, if_neg (not_lt.mpr h0)]
  omega

lemma f32round_nonneg {n : ℤ} (h0 : 0 ≤ n) : 0 ≤ f32round n := by
  simp only [f32round, if_neg (not_lt.mpr h0)]
  positivity

/-- Counterexample to claim C9 as stated: the code clamps against
`float(size.width-1)`, and the int→float conversion rounds
`16777219 = 2^24 + 3` up to `16777220.0f` (ties to even).  With
`width = 16777220` and the representable input pixel `x = 16777220`, the
returned x-coordinate is `16777220 > width - 1 = 16777219`, violating the
claimed bound `x ≤ width - 1`. -/
theorem claim_C9_counterexample :
    (1 : ℤ) ≤ 16777220
    ∧ (1 : ℤ) ≤ 1
    ∧ f32round (16777220 - 1) = 16777220
    ∧ (CropToSize ⟨16777220, 0⟩ ⟨16777220, 1⟩).x = ((16777220 : ℤ) : ℚ)
    ∧ ¬((CropToSize ⟨16777220, 0⟩ ⟨16777220, 1⟩).x ≤
        ((16777220 - 1 : ℤ) : ℚ)) := by
  have h : f32round (16777220 - 1) = 16777220 := by decide
  refine ⟨by decide, by decide, h, ?_, ?_⟩
  · simp only [CropToSize, h]
    norm_num
  · simp only [CropToSize, h]
    norm_num

/-- Claim C9 (amended): for every input pixel and every image size with
`width ≥ 1` and `height ≥ 1`, `UtilsOpenCV::CropToSize` returns a point
inside `[0, float(width-1)] × [0, float(height-1)]` — the bounds the code
actually clamps against — and a point already inside those bounds is
returned unchanged.  Whenever `width - 1 ≤ 2^24` and `height - 1 ≤ 2^24`
the conversions are exact, so the originally claimed bounds
`[0, width-1] × [0, height-1]` and the unchanged-if-in-bounds property
hold verbatim; above 2^24 the bound may round (see the counterexample). -/
theorem claim_C9_amended (px : Point2f) (size : SizeCV)
    (hw : 1 ≤ size.width) (hh : 1 ≤ size.height) :
    (0 ≤ (CropToSize px size).x
      ∧ (CropToSize px size).x ≤ ((f32round (size.width - 1) : ℤ) : ℚ)
      ∧ 0 ≤ (CropToSize px size).y
      ∧ (CropToSize px size).y ≤ ((f32round (size.height - 1) : ℤ) : ℚ))
    ∧ (0 ≤ px.x → px.x ≤ ((f32round (size.width - 1) : ℤ) : ℚ) →
        0 ≤ px.y → px.y ≤ ((f32round (size.height - 1) : ℤ) : ℚ) →
        CropToSize px size = px)
    ∧ (size.width - 1 ≤ 2 ^ 24 → size.height - 1 ≤ 2 ^ 24 →
        (0 ≤ (CropToSize px size).x
          ∧ (CropToSize px size).x ≤ ((size.width - 1 : ℤ) : ℚ)
          ∧ 0 ≤ (CropToSize px size).y
          ∧ (CropToSize px size).y ≤ ((size.height - 1 : ℤ) : ℚ))
        ∧ (0 ≤ px.x → px.x ≤ ((size.width - 1 : ℤ) : ℚ) →
            0 ≤ px.y → px.y ≤ ((size.height - 1 : ℤ) : ℚ) →
            CropToSize px size = px)) := by
  have hw0 : (0 : ℤ) ≤ size.width - 1 := by omega
  have hh0 : (0 : ℤ) ≤ size.height - 1 := by omega
  have hw' : (0 : ℚ) ≤ ((f32round (size.width - 1) : ℤ) : ℚ) := by
    exact_mod_cast f32round_nonneg hw0
  have hh' : (0 : ℚ) ≤ ((f32round (size.height - 1) : ℤ) : ℚ) := by
    exact_mod_cast f32round_nonneg hh0
  have hbounds : 0 ≤ (CropToSize px size).x
      ∧ (CropToSize px size).x ≤ ((f32round (size.width - 1) : ℤ) : ℚ)
      ∧ 0 ≤ (CropToSize px size).y
      ∧ (CropToSize px size).y ≤ ((f32round (size.height - 1) : ℤ) : ℚ) := by
    refine ⟨le_max_right _ _, ?_, le_max_right _ _, ?_⟩
    · exact max_le (min_le_right _ _) hw'
    · exact max_le (min_le_right _ _) hh'
  have hfix : 0 ≤ px.x → px.x ≤ ((f32round (size.width - 1) : ℤ) : ℚ) →
      0 ≤ px.y → px.y ≤ ((f32round (size.height - 1) : ℤ) : ℚ) →
      CropToSize px size = px := by
    intro h1 h2 h3 h4
    obtain ⟨X, Y⟩ := px
    simp only [CropToSize] at *
    rw [min_eq_left h2, max_eq_left h1, min_eq_left h4, max_eq_left h3]
  refine ⟨hbounds, hfix, ?_⟩
  intro hw24 hh24
  rw [f32round_exact hw0 hw24, f32round_exact hh0 hh24] at hbounds hfix
  exact ⟨hbounds, hfix⟩

/-- Witness for claim C9 (amended) at a concrete pixel and a small size,
where the conversions are exact and the original bounds hold. -/
theorem claim_C9_amended_witness :
    (1 : ℤ) ≤ (10 : ℤ)
    ∧ ((10 : ℤ) - 1 ≤ 2 ^ 24)
    ∧ (0 ≤ (CropToSize ⟨5, -3⟩ ⟨10, 8⟩).x
      ∧ (CropToSize ⟨5, -3⟩ ⟨10, 8⟩).x ≤ (((10 : ℤ) - 1 : ℤ) : ℚ)
      ∧ 0 ≤ (CropToSize ⟨5, -3⟩ ⟨10, 8⟩).y
      ∧ (CropToSize ⟨5, -3⟩ ⟨10, 8⟩).y ≤ (((8 : ℤ) - 1 : ℤ) : ℚ)) :=
  ⟨by decide, by decide,
    ((claim_C9_amended ⟨5, -3⟩ ⟨10, 8⟩ (by decide) (by decide)).2.2
      (by decide) (by decide)).1⟩

lemma covPerm_invol : ∀ i : Fin 15, covPerm (covPerm i) = i := by decide

lemma cov_eq_perm (M : Fin 15 → Fin 15 → ℚ) (hs : ∀ i j, M i j = M j i)
    (i j : Fin 15) :
    Covariance_bvx2xvb M i j = M (covPerm i) (covPerm j) := by
  unfold Covariance_bvx2xvb covPerm
  split_ifs <;> first | rfl | exact hs _ _

/-- Claim C10: for every symmetric 15×15 matrix `M`,
`UtilsOpenCV::Covariance_bvx2xvb` returns a symmetric matrix, and applying
it twice returns `M` exactly (the block reordering is an involution on
symmetric matrices). -/
theorem claim_C10 (M : Fin 15 → Fin 15 → ℚ)
    (hs : ∀ i j, M i j = M j i) :
    (∀ i j, Covariance_bvx2xvb M i j = Covariance_bvx2xvb M j i)
    ∧ (∀ i j, Covariance_bvx2xvb (Covariance_bvx2xvb M) i j = M i j) := by
  have hsym : ∀ i j, Covariance_bvx2xvb M i j = Covariance_bvx2xvb M j i := by
    intro i j
    rw [cov_eq_perm M hs, cov_eq_perm M hs, hs]
  refine ⟨hsym, fun i j => ?_⟩
  rw [cov_eq_perm _ hsym, cov_eq_perm M hs, covPerm_invol, covPerm_invol]

/-- A concrete symmetric 15×15 test matrix for the claim C10 witness. -/
def Mtest : Fin 15 → Fin 15 → ℚ := fun i j => ((i.val * j.val : ℕ) : ℚ)

/-- Witness for claim C10 at a concrete symmetric matrix. -/
theorem claim_C10_witness :
    (∀ i j, Mtest i j = Mtest j i)
    ∧ Covariance_bvx2xvb (Covariance_bvx2xvb Mtest) 3 12 = Mtest 3 12 := by
  have hsym : ∀ i j, Mtest i j = Mtest j i := by
    intro i j
    unfold Mtest
    rw [Nat.mul_comm]
  exact ⟨hsym, (claim_C10 Mtest hsym).2 3 12⟩

/-- The assembler's inductive invariant: dispatched packets are adjacent
(each interval begins where the previous ended), strictly ordered by frame
timestamp, internally well-formed, and all dispatched intervals end no
later than the previous-frame timestamp, the last one ending exactly
there. -/
def AsmInv (st : AssemblerState) : Prop :=
  st.dispatched.Chain' (fun p q => p.interval_end_ts = q.interval_start_ts)
  ∧ st.dispatched.Pairwise (fun p q => p.frame_ts < q.frame_ts)
  ∧ st.dispatched.Pairwise
      (fun p q => p.interval_end_ts ≤ q.interval_start_ts)
  ∧ (∀ p ∈ st.dispatched,
      p.interval_start_ts < p.interval_end_ts
        ∧ p.frame_ts = p.interval_end_ts)
  ∧ (∀ p ∈ st.dispatched, p.interval_end_ts ≤ st.prev_ts)
  ∧ (∀ q ∈ st.dispatched.getLast?, q.interval_end_ts = st.prev_ts)

lemma asmStep_inv (st : AssemblerState) (ev : PipelineEvent)
    (h : AsmInv st) : AsmInv (assemblerStep st ev) := by
  obtain ⟨h1, h2, h3, h4, h5, h6⟩ := h
  cases ev with
  | imuArrival s => exact ⟨h1, h2, h3, h4, h5, h6⟩
  | frameArrival t =>
    by_cases hlt : st.prev_ts < t
    · rcases hex : extract_interval st.buffer st.prev_ts t with ⟨res, b2⟩
      cases res with
      | error err =>
        unfold assemblerStep
        dsimp only
        rw [if_pos hlt, hex]
        exact ⟨h1, h2, h3, h4, h5, h6⟩
      | ok lres =>
        unfold assemblerStep
        dsimp only
        rw [if_pos hlt, hex]
        dsimp only
        refine ⟨?_, ?_, ?_, ?_, ?_, ?_⟩
        · rw [List.chain'_append]
          refine ⟨h1, List.chain'_singleton _, ?_⟩
          intro x hx y hy
          simp only [List.head?_cons, Option.mem_def, Option.some.injEq] at hy
          subst hy
          exact h6 x hx
        · rw [List.pairwise_append]
          refine ⟨h2, List.pairwise_singleton _ _, ?_⟩
          intro p hp q hq
          rw [List.mem_singleton] at hq
          subst hq
          have ha := (h4 p hp).2
          have hb := h5 p hp
          show p.frame_ts < t
          omega
        · rw [List.pairwise_append]
          refine ⟨h3, List.pairwise_singleton _ _, ?_⟩
          intro p hp q hq
          rw [List.mem_singleton] at hq
          subst hq
          exact h5 p hp
        · intro p hp
          rcases List.mem_append.mp hp with hp | hp
          · exact h4 p hp
          · rw [List.mem_singleton] at hp
            subst hp
            exact ⟨hlt, rfl⟩
        · intro p hp
          rcases List.mem_append.mp hp with hp | hp
          · exact le_of_lt (lt_of_le_of_lt (h5 p hp) hlt)
          · rw [List.mem_singleton] at hp
            subst hp
            exact le_refl t
        · intro q hq
          rw [List.getLast?_concat] at hq
          simp only [Option.mem_def, Option.some.injEq] at hq
          subst hq
          rfl
    · unfold assemblerStep
      dsimp only
      rw [if_neg hlt]
      exact ⟨h1, h2, h3, h4, h5, h6⟩

lemma runAssembler_inv (evs : List PipelineEvent) :
    ∀ st : AssemblerState, AsmInv st → AsmInv (runAssembler st evs) := by
  induction evs with
  | nil => exact fun st h => h
  | cons ev rest ih => exact fun st h => ih _ (asmStep_inv st ev h)

/-- Claim C5: starting from any previous-frame timestamp and any buffer
with no packets dispatched yet, after processing any sequence of pipeline
events the Synchronization Assembler has dispatched packets in strictly
increasing frame-timestamp order, with consecutive packets' inertial
intervals adjacent (each packet's `interval_start_ts` equals the previously
dispatched packet's `interval_end_ts`) and hence non-overlapping — no
timestamp lies in the interior of two different packets' intervals — and
the previous-frame timestamp used as `start_ts` is updated only on
successful dispatch of a packet. -/
theorem claim_C5 (p0 : ℤ) (b0 : InertialSampleBuffer)
    (evs : List PipelineEvent) :
    (runAssembler ⟨p0, b0, []⟩ evs).dispatched.Pairwise
      (fun p q => p.frame_ts < q.frame_ts)
    ∧ (runAssembler ⟨p0, b0, []⟩ evs).dispatched.Chain'
      (fun p q => p.interval_end_ts = q.interval_start_ts)
    ∧ (∀ p ∈ (runAssembler ⟨p0, b0, []⟩ evs).dispatched,
        p.interval_start_ts < p.interval_end_ts
          ∧ p.frame_ts = p.interval_end_ts)
    ∧ (runAssembler ⟨p0, b0, []⟩ evs).dispatched.Pairwise
      (fun p q => ∀ t : ℤ,
        ¬(p.interval_start_ts < t ∧ t < p.interval_end_ts
          ∧ q.interval_start_ts < t ∧ t < q.interval_end_ts))
    ∧ (∀ (st : AssemblerState) (ev : PipelineEvent),
        (assemblerStep st ev).dispatched = st.dispatched →
        (assemblerStep st ev).prev_ts = st.prev_ts) := by
  have hinv : AsmInv (runAssembler ⟨p0, b0, []⟩ evs) := by
    refine runAssembler_inv evs _ ?_
    refine ⟨List.chain'_nil, List.Pairwise.nil, List.Pairwise.nil, ?_, ?_, ?_⟩
    · intro p hp
      cases hp
    · intro p hp
      cases hp
    · intro q hq
      cases hq
  obtain ⟨h1, h2, h3, h4, h5, h6⟩ := hinv
  refine ⟨h2, h1, h4, ?_, ?_⟩
  · refine h3.imp ?_
    intro p q hpq t hc
    obtain ⟨ha, hb, hc2, hd⟩ := hc
    omega
  · intro st ev h
    cases ev with
    | imuArrival s => rfl
    | frameArrival t =>
      by_cases hlt : st.prev_ts < t
      · rcases hex : extract_interval st.buffer st.prev_ts t with ⟨res, b2⟩
        cases res with
        | error err =>
          unfold assemblerStep
          dsimp only
          rw [if_pos hlt, hex]
        | ok lres =>
          unfold assemblerStep at h
          dsimp only at h
          rw [if_pos hlt, hex] at h
          dsimp only at h
          have hlen := congrArg List.length h
          simp at hlen
      · unfold assemblerStep
        dsimp only
        rw [if_neg hlt]

/-- Witness for claim C5 at a concrete initial state and trace, also
discharging the no-dispatch hypothesis of the last conjunct at a concrete
step. -/
theorem claim_C5_witness :
    (runAssembler ⟨0, ⟨[]⟩, []⟩ []).dispatched.Pairwise
      (fun p q => p.frame_ts < q.frame_ts)
    ∧ (assemblerStep ⟨0, ⟨[]⟩, []⟩
        (PipelineEvent.imuArrival ⟨5, ⟨0, 0, 0⟩, ⟨0, 0, 0⟩⟩)).prev_ts =
      (⟨0, ⟨[]⟩, []⟩ : AssemblerState).prev_ts :=
  ⟨(claim_C5 0 ⟨[]⟩ []).1,
    (claim_C5 0 ⟨[]⟩ []).2.2.2.2 ⟨0, ⟨[]⟩, []⟩
      (PipelineEvent.imuArrival ⟨5, ⟨0, 0, 0⟩, ⟨0, 0, 0⟩⟩) rfl⟩

-- Inversion of a successful extraction: the coverage conditions held and
-- the payload is the covering interval.
lemma extract_ok_inv {b : InertialSampleBuffer} {s e : ℤ}
    {r : List InertialSample}
    (h : (extract_interval b s e).1 = Except.ok r) :
    ∃ f g, b.samples.head? = some f ∧ b.samples.getLast? = some g
      ∧ f.timestamp ≤ s ∧ e ≤ g.timestamp
      ∧ r = buildInterval b.samples s e := by
  unfold extract_interval at h
  cases hg : b.samples.getLast? with
  | none =>
    rw [hg] at h
    cases h
  | some g =>
    rw [hg] at h
    dsimp only at h
    by_cases hlt : g.timestamp < e
    · rw [if_pos hlt] at h
      cases h
    · rw [if_neg hlt] at h
      cases hf : b.samples.head? with
      | none =>
        rw [hf] at h
        cases h
      | some f =>
        rw [hf] at h
        dsimp only at h
        by_cases hsf : s < f.timestamp
        · rw [if_pos hsf] at h
          cases h
        · rw [if_neg hsf] at h
          dsimp only at h
          injection h with h2
          exact ⟨f, g, rfl, rfl, not_lt.mp hsf, not_lt.mp hlt, h2.symm⟩

-- Appending samples entirely beyond `end_ts` does not change the
-- constructed interval, as long as some retained sample already covers
-- `end_ts`.
lemma buildInterval_append {l ext : List InertialSample} {s e : ℤ}
    (hse : s < e)
    (hext : ∀ x ∈ ext, e < x.timestamp)
    (hcov : ∃ x ∈ l, e ≤ x.timestamp) :
    buildInterval (l ++ ext) s e = buildInterval l s e := by
  have hmid : midSamples (l ++ ext) s e = midSamples l s e := by
    unfold midSamples
    rw [List.filter_append]
    have hnil : ext.filter
        (fun x => decide (s ≤ x.timestamp) && decide (x.timestamp ≤ e)) = [] := by
      rw [List.filter_eq_nil_iff]
      intro x hx
      have := hext x hx
      simp only [Bool.and_eq_true, decide_eq_true_eq, not_and]
      intro _
      omega
    rw [hnil, List.append_nil]
  have hhasS : hasExact (l ++ ext) s = hasExact l s := by
    unfold hasExact
    rw [List.any_append]
    have hfalse : ext.any (fun x => decide (x.timestamp = s)) = false := by
      rw [List.any_eq_false]
      intro x hx
      have := hext x hx
      simp only [decide_eq_true_eq]
      omega
    rw [hfalse, Bool.or_false]
  have hhasE : hasExact (l ++ ext) e = hasExact l e := by
    unfold hasExact
    rw [List.any_append]
    have hfalse : ext.any (fun x => decide (x.timestamp = e)) = false := by
      rw [List.any_eq_false]
      intro x hx
      have := hext x hx
      simp only [decide_eq_true_eq]
      omega
    rw [hfalse, Bool.or_false]
  have hfbS : findBelow (l ++ ext) s = findBelow l s := by
    unfold findBelow
    rw [List.filter_append]
    have hnil : ext.filter (fun x => decide (x.timestamp < s)) = [] := by
      rw [List.filter_eq_nil_iff]
      intro x hx
      have := hext x hx
      simp only [decide_eq_true_eq]
      omega
    rw [hnil, List.append_nil]
  have hfbE : findBelow (l ++ ext) e = findBelow l e := by
    unfold findBelow
    rw [List.filter_append]
    have hnil : ext.filter (fun x => decide (x.timestamp < e)) = [] := by
      rw [List.filter_eq_nil_iff]
      intro x hx
      have := hext x hx
      simp only [decide_eq_true_eq]
      omega
    rw [hnil, List.append_nil]
  have hfaS : findAbove (l ++ ext) s = findAbove l s := by
    unfold findAbove
    rw [List.filter_append]
    obtain ⟨x0, hx0l, hx0e⟩ := hcov
    have hx0f : x0 ∈ l.filter (fun x => decide (s < x.timestamp)) :=
      List.mem_filter.mpr ⟨hx0l, by simp only [decide_eq_true_eq]; omega⟩
    refine List.head?_append_of_ne_nil _ ?_
    intro hc
    rw [hc] at hx0f
    cases hx0f
  have hws : withStartBoundary (l ++ ext) s e = withStartBoundary l s e := by
    unfold withStartBoundary
    rw [hhasS, hfbS, hfaS, hmid]
  by_cases hAe : hasExact l e = true
  · rw [buildInterval_exact (hhasE.trans hAe), buildInterval_exact hAe, hws]
  · have hfaE : findAbove (l ++ ext) e = findAbove l e := by
      unfold findAbove
      rw [List.filter_append]
      obtain ⟨x0, hx0l, hx0e⟩ := hcov
      have hx0ne := hasExact_false hAe x0 hx0l
      have hx0f : x0 ∈ l.filter (fun x => decide (e < x.timestamp)) :=
        List.mem_filter.mpr ⟨hx0l, by simp only [decide_eq_true_eq]; omega⟩
      refine List.head?_append_of_ne_nil _ ?_
      intro hc
      rw [hc] at hx0f
      cases hx0f
    unfold buildInterval
    rw [hhasE, hfbE, hfaE, hws]

/-- Claim C7 (amended): for every buffer state in which
`extract_interval(start_ts, end_ts)` returns `InsufficientData`, inserting
further in-order samples that provide coverage of the interval makes the
retried call with the same arguments succeed; and once a retry succeeds,
any further in-order insertions leave the result of that same call
unchanged (extraction is idempotent under retry).  Different in-order
completions arriving *before* the first success may, however, yield
different interpolated end samples — see the counterexample. -/
theorem claim_C7_amended :
    (∀ (b : InertialSampleBuffer) (ext : List InertialSample) (s e : ℤ)
      (f g : InertialSample),
      (extract_interval b s e).1 = Except.error BufferError.InsufficientData →
      (b.samples ++ ext).head? = some f → f.timestamp ≤ s →
      (b.samples ++ ext).getLast? = some g → e ≤ g.timestamp →
      (extract_interval ⟨b.samples ++ ext⟩ s e).1 =
        Except.ok (buildInterval (b.samples ++ ext) s e))
    ∧ (∀ (b : InertialSampleBuffer) (ext : List InertialSample) (s e : ℤ)
        (r : List InertialSample),
        BufferWF ⟨b.samples ++ ext⟩ → s < e →
        (extract_interval b s e).1 = Except.ok r →
        (extract_interval ⟨b.samples ++ ext⟩ s e).1 = Except.ok r) := by
  constructor
  · intro b ext s e f g _ hf hfs hg hge
    exact extract_ok_of_coverage (b := ⟨b.samples ++ ext⟩) hf hfs hg hge
  · intro b ext s e r hwf hse h
    obtain ⟨f, g, hf, hg, hfs, hge, hr⟩ := extract_ok_inv h
    subst hr
    have hwf2 : (b.samples ++ ext).Pairwise
        (fun a c => a.timestamp < c.timestamp) := hwf
    have hcross := (List.pairwise_append.mp hwf2).2.2
    have hgmem : g ∈ b.samples := List.mem_of_getLast?_eq_some hg
    have hext : ∀ x ∈ ext, e < x.timestamp :=
      fun x hx => lt_of_le_of_lt hge (hcross g hgmem x hx)
    have hbne : b.samples ≠ [] := by
      intro hnil
      rw [hnil] at hf
      cases hf
    have hf2 : (b.samples ++ ext).head? = some f := by
      rw [List.head?_append_of_ne_nil _ hbne]
      exact hf
    cases hg2 : (b.samples ++ ext).getLast? with
    | none =>
      rw [List.getLast?_eq_none_iff] at hg2
      rcases List.append_eq_nil.mp hg2 with ⟨hnil, _⟩
      exact absurd hnil hbne
    | some g2 =>
      have hg2ge : e ≤ g2.timestamp :=
        le_trans hge (sorted_le_getLast hwf2 hg2 g
          (List.mem_append_left _ hgmem))
      rw [extract_ok_of_coverage (b := ⟨b.samples ++ ext⟩) hf2 hfs hg2 hg2ge]
      rw [buildInterval_append hse hext ⟨g, hgmem, hge⟩]

/-- The base buffer of the claim C7 counterexample: in-order samples at
t = 0 and t = 100 with zero payloads; the query `[0, 200]` returns
`InsufficientData` on it. -/
def c7base : InertialSampleBuffer :=
  ⟨[⟨0, ⟨0, 0, 0⟩, ⟨0, 0, 0⟩⟩, ⟨100, ⟨0, 0, 0⟩, ⟨0, 0, 0⟩⟩]⟩

/-- Completion A: one further sample exactly at t = 200 with
angular-velocity x-component 2. -/
def c7extA : List InertialSample := [⟨200, ⟨2, 0, 0⟩, ⟨0, 0, 0⟩⟩]

/-- Completion B: one further sample at t = 300 with angular-velocity
x-component 2, so the boundary sample at t = 200 must be interpolated. -/
def c7extB : List InertialSample := [⟨300, ⟨2, 0, 0⟩, ⟨0, 0, 0⟩⟩]

/-- Counterexample to claim C7 as stated: two different in-order
completions of the same `InsufficientData` state both make the retried
call `extract_interval(0, 200)` succeed, yet they return different
sequences — the completion with an exact sample at 200 returns that sample
(value 2), while the completion reaching only to 300 returns a boundary
sample interpolated to value 1.  The retried result therefore depends on
the extra inserted data, contradicting the claim. -/
theorem claim_C7_counterexample :
    (extract_interval c7base 0 200).1 =
      Except.error BufferError.InsufficientData
    ∧ BufferWF ⟨c7base.samples ++ c7extA⟩
    ∧ BufferWF ⟨c7base.samples ++ c7extB⟩
    ∧ (extract_interval ⟨c7base.samples ++ c7extA⟩ 0 200).1 =
        Except.ok [⟨0, ⟨0, 0, 0⟩, ⟨0, 0, 0⟩⟩, ⟨100, ⟨0, 0, 0⟩, ⟨0, 0, 0⟩⟩,
          ⟨200, ⟨2, 0, 0⟩, ⟨0, 0, 0⟩⟩]
    ∧ (extract_interval ⟨c7base.samples ++ c7extB⟩ 0 200).1 =
        Except.ok [⟨0, ⟨0, 0, 0⟩, ⟨0, 0, 0⟩⟩, ⟨100, ⟨0, 0, 0⟩, ⟨0, 0, 0⟩⟩,
          lerpSample ⟨100, ⟨0, 0, 0⟩, ⟨0, 0, 0⟩⟩ ⟨300, ⟨2, 0, 0⟩, ⟨0, 0, 0⟩⟩
            200]
    ∧ lerpSample ⟨100, ⟨0, 0, 0⟩, ⟨0, 0, 0⟩⟩ ⟨300, ⟨2, 0, 0⟩, ⟨0, 0, 0⟩⟩ 200 =
        (⟨200, ⟨1, 0, 0⟩, ⟨0, 0, 0⟩⟩ : InertialSample)
    ∧ (⟨200, ⟨1, 0, 0⟩, ⟨0, 0, 0⟩⟩ : InertialSample) ≠
        ⟨200, ⟨2, 0, 0⟩, ⟨0, 0, 0⟩⟩ := by
  refine ⟨rfl, ?_, ?_, rfl, rfl, ?_, by decide⟩
  · unfold BufferWF c7base c7extA
    norm_num [List.pairwise_cons]
  · unfold BufferWF c7base c7extB
    norm_num [List.pairwise_cons]
  · norm_num [lerpSample, lerpVec, lerpQ]

/-- Witness for claim C7 (amended): a concrete successful extraction is
unchanged by a further in-order insertion beyond the interval. -/
theorem claim_C7_amended_witness :
    BufferWF ⟨(⟨c7base.samples ++ c7extA⟩ : InertialSampleBuffer).samples
      ++ [⟨400, ⟨0, 0, 0⟩, ⟨0, 0, 0⟩⟩]⟩
    ∧ (0 : ℤ) < 200
    ∧ (extract_interval ⟨c7base.samples ++ c7extA⟩ 0 200).1 =
        Except.ok [⟨0, ⟨0, 0, 0⟩, ⟨0, 0, 0⟩⟩, ⟨100, ⟨0, 0, 0⟩, ⟨0, 0, 0⟩⟩,
          ⟨200, ⟨2, 0, 0⟩, ⟨0, 0, 0⟩⟩]
    ∧ (extract_interval ⟨(⟨c7base.samples ++ c7extA⟩ :
          InertialSampleBuffer).samples
        ++ [⟨400, ⟨0, 0, 0⟩, ⟨0, 0, 0⟩⟩]⟩ 0 200).1 =
        Except.ok [⟨0, ⟨0, 0, 0⟩, ⟨0, 0, 0⟩⟩, ⟨100, ⟨0, 0, 0⟩, ⟨0, 0, 0⟩⟩,
          ⟨200, ⟨2, 0, 0⟩, ⟨0, 0, 0⟩⟩] := by
  have hwf : BufferWF ⟨(⟨c7base.samples ++ c7extA⟩ :
      InertialSampleBuffer).samples ++ [⟨400, ⟨0, 0, 0⟩, ⟨0, 0, 0⟩⟩]⟩ := by
    unfold BufferWF c7base c7extA
    norm_num [List.pairwise_cons]
  refine ⟨hwf, by decide, rfl, ?_⟩
  exact claim_C7_amended.2 ⟨c7base.samples ++ c7extA⟩
    [⟨400, ⟨0, 0, 0⟩, ⟨0, 0, 0⟩⟩] 0 200 _ hwf (by decide) rfl

end VIO
